import Mathlib

/-
Verification development for the Graphite repository.

Part 1 models the geometry library entry point present in the sources,
`Subpath::split` (src/libraries/bezier-rs/src/subpath/transform.rs), over a
shallow embedding in which the f64 scalars are modelled as rationals (the
claims about split are control-flow claims, insensitive to rounding), and a
Rust panic (assertion failure, unwrap of None, todo!) is modelled as the
value `none` of an `Option` result.

Part 2 models the DVec2 wrapper of src/node-graph/graph-craft/src/lib.rs.

Part 3 models the node-graph compilation and execution core described by the
specification (Document Graph, compile, Proto Graph, Executor, Cache).  That
code is not under src/ (src only holds the crate roots and declarations), so
those definitions are modelled from the spec, as marked in their doc comments.
-/

namespace Graphite

attribute [local semireducible] Rat.mul Rat.add Rat.sub Rat.inv

/-- Modelled from the spec: the geometry library is an external collaborator
whose scalar type is f64; the points of the curve library are modelled as
pairs of rationals. -/
abbrev Pt : Type := ℚ × ℚ

/-- Modelled from the spec: bezier-rs `ManipulatorGroup` (an anchor with
optional in/out handles).  Its declaration is outside src/, but its fields
`anchor`, `in_handle`, `out_handle` are used directly by `Subpath::split`. -/
structure ManipulatorGroup where
  anchor : Pt
  in_handle : Option Pt
  out_handle : Option Pt
deriving DecidableEq

/-- Modelled from the spec: bezier-rs `Subpath`, a list of manipulator groups
together with a `closed` flag.  The declaration is outside src/; the fields
are used directly by `Subpath::split` and its tests. -/
structure Subpath where
  manipulator_groups : List ManipulatorGroup
  closed : Bool
deriving DecidableEq

/-- Modelled from the spec: the handle payload of a bezier-rs `Bezier`
(linear, quadratic or cubic segment). -/
inductive BezierHandles where
  | linear : BezierHandles
  | quadratic : Pt → BezierHandles
  | cubic : Pt → Pt → BezierHandles
deriving DecidableEq

/-- Modelled from the spec: a bezier-rs `Bezier` curve segment; `end_` stands
for the Rust field `end` (a Lean keyword). -/
structure Bezier where
  start : Pt
  handles : BezierHandles
  end_ : Pt
deriving DecidableEq

/-- Modelled from the spec: `Bezier::handle_start`, the first control handle
of a segment when it has one. -/
def Bezier.handle_start : Bezier → Option Pt
  | ⟨_, BezierHandles.linear, _⟩ => none
  | ⟨_, BezierHandles.quadratic h, _⟩ => some h
  | ⟨_, BezierHandles.cubic h _, _⟩ => some h

/-- Modelled from the spec: `Bezier::handle_end`, the last control handle of a
segment when it has one. -/
def Bezier.handle_end : Bezier → Option Pt
  | ⟨_, BezierHandles.linear, _⟩ => none
  | ⟨_, BezierHandles.quadratic h, _⟩ => some h
  | ⟨_, BezierHandles.cubic _ h, _⟩ => some h

/-- Linear interpolation between two points, the basic step of de Casteljau
subdivision. -/
def lerp (a b : Pt) (t : ℚ) : Pt :=
  (a.1 + (b.1 - a.1) * t, a.2 + (b.2 - a.2) * t)

/-- Modelled from the spec: `Bezier::split`, de Casteljau subdivision of one
segment at parameter t, returning the two halves. -/
def Bezier.split (b : Bezier) (t : ℚ) : Bezier × Bezier :=
  match b.handles with
  | BezierHandles.linear =>
    let p := lerp b.start b.end_ t
    (⟨b.start, BezierHandles.linear, p⟩, ⟨p, BezierHandles.linear, b.end_⟩)
  | BezierHandles.quadratic h =>
    let q1 := lerp b.start h t
    let q2 := lerp h b.end_ t
    let p := lerp q1 q2 t
    (⟨b.start, BezierHandles.quadratic q1, p⟩, ⟨p, BezierHandles.quadratic q2, b.end_⟩)
  | BezierHandles.cubic h1 h2 =>
    let q1 := lerp b.start h1 t
    let q2 := lerp h1 h2 t
    let q3 := lerp h2 b.end_ t
    let r1 := lerp q1 q2 t
    let r2 := lerp q2 q3 t
    let p := lerp r1 r2 t
    (⟨b.start, BezierHandles.cubic q1 r1, p⟩, ⟨p, BezierHandles.cubic r2 q3, b.end_⟩)

/-- Modelled from the spec: `ManipulatorGroup::to_bezier`, the curve segment
between two consecutive manipulator groups; the segment degree depends on
which of the two facing handles are present. -/
def ManipulatorGroup.to_bezier (g e : ManipulatorGroup) : Bezier :=
  match g.out_handle, e.in_handle with
  | some h1, some h2 => ⟨g.anchor, BezierHandles.cubic h1 h2, e.anchor⟩
  | some h1, none => ⟨g.anchor, BezierHandles.quadratic h1, e.anchor⟩
  | none, some h2 => ⟨g.anchor, BezierHandles.quadratic h2, e.anchor⟩
  | none, none => ⟨g.anchor, BezierHandles.linear, e.anchor⟩

/-- Modelled from the spec: `Subpath::iter`, the list of curve segments of a
subpath.  An open subpath with n manipulator groups has n - 1 segments; a
closed one also has the wrap-around segment back to the first group (the
segment counts are pinned down by the split tests in src). -/
def Subpath.iter (s : Subpath) : List Bezier :=
  match s.manipulator_groups with
  | [] => []
  | g :: rest =>
    if s.closed then
      List.zipWith ManipulatorGroup.to_bezier (g :: rest) (rest ++ [g])
    else
      List.zipWith ManipulatorGroup.to_bezier (g :: rest) rest

/-- Modelled from the spec: `Subpath::len_segments`, the number of curve
segments (groups for a closed subpath, groups minus one for an open one). -/
def Subpath.len_segments (s : Subpath) : Nat :=
  s.manipulator_groups.length - (if s.closed then 0 else 1)

/-- Modelled from the spec: `Subpath::new`, the public constructor used by
`Subpath::split` to assemble its results. -/
def Subpath.new (groups : List ManipulatorGroup) (closed : Bool) : Subpath :=
  ⟨groups, closed⟩

/-- Modelled from the spec: the bezier-rs `ComputeType` argument of the
library's evaluate/split operations, as matched by `Subpath::split`. -/
inductive ComputeType where
  | Parametric : ℚ → ComputeType
  | Euclidean : ℚ → ComputeType
  | EuclideanWithinError : ℚ → ℚ → ComputeType
deriving DecidableEq

/-- The in-place update `first_split[len - 1].out_handle = h` guarded by
`!first_split.is_empty()` in `Subpath::split`. -/
def setLastOut (gs : List ManipulatorGroup) (h : Option Pt) : List ManipulatorGroup :=
  match gs.getLast? with
  | none => gs
  | some g => gs.dropLast ++ [{ g with out_handle := h }]

/-- The in-place update `second_split[0].in_handle = h` guarded by
`!second_split.is_empty()` in `Subpath::split`. -/
def setHeadIn (gs : List ManipulatorGroup) (h : Option Pt) : List ManipulatorGroup :=
  match gs with
  | [] => []
  | g :: rest => { g with in_handle := h } :: rest

/-- The `scaled_t` of `Subpath::split`: t times the number of curves. -/
def splitScaledT (s : Subpath) (t : ℚ) : ℚ := t * (s.len_segments : ℚ)

/-- The `target_curve_index` of `Subpath::split`: the floor of `scaled_t`
(the f64-to-i32 cast of the floor). -/
def splitIndex (s : Subpath) (t : ℚ) : ℤ := Rat.floor (splitScaledT s t)

/-- The `target_curve_t` of `Subpath::split`: `scaled_t % 1.`, which is the
fractional part since the asserted range makes `scaled_t` nonnegative. -/
def splitFract (s : Subpath) (t : ℚ) : ℚ :=
  splitScaledT s t - (splitIndex s t : ℚ)

/-- The `[first_bezier, second_bezier]` pair of `Subpath::split`:
`curve.split(if t == 1. { t } else { target_curve_t })`. -/
def splitPair (s : Subpath) (t : ℚ) (curve : Bezier) : Bezier × Bezier :=
  curve.split (if t = 1 then t else splitFract s t)

/-- The split point of the manipulator-group vector:
`num_manipulator_groups.min(target_curve_index as usize + 1)`. -/
def splitCut (s : Subpath) (t : ℚ) : Nat :=
  min s.manipulator_groups.length ((splitIndex s t).toNat + 1)

/-- The initial `first_split` of `Subpath::split`: the groups before the cut
when t > 0 (the head part of `Vec::split_off`), else empty. -/
def splitFirst0 (s : Subpath) (t : ℚ) : List ManipulatorGroup :=
  if 0 < t then s.manipulator_groups.take (splitCut s t) else []

/-- The initial `second_split` of `Subpath::split`: the groups from the cut on
when t > 0 (the tail returned by `Vec::split_off`), else the whole vector. -/
def splitSecond0 (s : Subpath) (t : ℚ) : List ManipulatorGroup :=
  if 0 < t then s.manipulator_groups.drop (splitCut s t) else s.manipulator_groups

/-- The final `first_split` of the general branch of `Subpath::split`: patch
the last out-handle, then push the split-point group unless the split landed
exactly on a manipulator group other than the first. -/
def splitFirst2 (s : Subpath) (t : ℚ) (curve : Bezier) : List ManipulatorGroup :=
  let fb := (splitPair s t curve).1
  let f1 := setLastOut (splitFirst0 s t) fb.handle_start
  if splitFract s t ≠ 0 ∨ t = 0 then
    f1 ++ [⟨fb.end_, fb.handle_end, none⟩]
  else f1

/-- The final `second_split` of the general branch of `Subpath::split`: patch
the head in-handle, then insert the split-point group in front when t > 0. -/
def splitSecond2 (s : Subpath) (t : ℚ) (curve : Bezier) : List ManipulatorGroup :=
  let sb := (splitPair s t curve).2
  let s1 := setHeadIn (splitSecond0 s t) sb.handle_end
  if t ≠ 0 then ⟨sb.start, none, sb.handle_start⟩ :: s1 else s1

/-- The body of `Subpath::split` in the parametric case, after the target
curve has been obtained (src/libraries/bezier-rs/src/subpath/transform.rs,
lines 14-84), assembled from the pieces above.  In the closed endpoint branch
the whole vector is in `second_split`, a closing group is pushed onto
`first_split`, and the final closed-subpath rotation appends `first_split`
after `second_split`; `Vec::split_off` becomes take/drop at the same index. -/
def Subpath.splitAtCurve (s : Subpath) (t : ℚ) (curve : Bezier) : Option (Subpath × Option Subpath) :=
  if s.closed ∧ (t = 0 ∨ t = 1) then
    match s.iter.getLast? with
    | none => none
    | some last_curve =>
      some (Subpath.new
        (splitSecond0 s t ++
          (splitFirst0 s t ++
            [⟨(splitPair s t curve).1.end_, last_curve.handle_end, none⟩])) false,
        none)
  else
    if s.closed then
      some (Subpath.new (splitSecond2 s t curve ++ splitFirst2 s t curve) false, none)
    else
      some (Subpath.new (splitFirst2 s t curve) false,
        some (Subpath.new (splitSecond2 s t curve) false))

/-- `Subpath::split` (src/libraries/bezier-rs/src/subpath/transform.rs).
A `none` result models a panic: the failed range assertion, the unwrap of the
last curve of an empty iterator, or the `todo!()` of the Euclidean branches.
The scrutinee of the inner match models
`self.iter().nth(i).unwrap_or_else(|| self.iter().last().unwrap())`. -/
def Subpath.split (s : Subpath) (ct : ComputeType) : Option (Subpath × Option Subpath) :=
  match ct with
  | ComputeType.Parametric t =>
    if 0 ≤ t ∧ t ≤ 1 then
      match (s.iter.get? (splitIndex s t).toNat).orElse
          (fun _ => s.iter.getLast?) with
      | none => none
      | some curve => s.splitAtCurve t curve
    else none
  | ComputeType.Euclidean _ => none
  | ComputeType.EuclideanWithinError _ _ => none

/-- The ts-rs compatible vector wrapper of graph-craft
(src/node-graph/graph-craft/src/lib.rs); the f64 fields are modelled as
rationals, which is immaterial to the field-shuffling conversions. -/
structure DVec2 where
  x : ℚ
  y : ℚ
deriving DecidableEq

/-- The external glam::DVec2 value the wrapper converts from and into. -/
structure GlamDVec2 where
  x : ℚ
  y : ℚ
deriving DecidableEq

/-- `impl From of glam DVec2 for DVec2` (graph-craft lib.rs lines 18-22). -/
def DVec2.from_glam : GlamDVec2 → DVec2
  | ⟨x, y⟩ => ⟨x, y⟩

/-- `impl Into of glam DVec2 for DVec2` (graph-craft lib.rs lines 24-29). -/
def DVec2.into : DVec2 → GlamDVec2
  | ⟨x, y⟩ => ⟨x, y⟩

/-- Modelled from the spec: stable node identities of the Document Graph
(spec section 3); the node-graph core itself is not under src/. -/
abbrev NodeId := Nat

/-- Modelled from the spec: the closed set of domain value kinds
(spec section 3, Type). -/
inductive Ty where
  | number : Ty
  | boolean : Ty
  | text : Ty
  | vec2 : Ty
  | color : Ty
  | path : Ty
  | image : Ty
  | listOf : Ty → Ty
  | optional : Ty → Ty
deriving DecidableEq

/-- Modelled from the spec: literal values a Document Graph slot can carry
directly (the scalar-like kinds of the closed type set). -/
inductive Value where
  | number : ℚ → Value
  | boolean : Bool → Value
  | text : String → Value
  | vec2 : ℚ → ℚ → Value
  | color : ℚ → ℚ → ℚ → ℚ → Value
deriving DecidableEq

/-- Modelled from the spec: the type of a literal value, used for structural
type checks. -/
def valueTy : Value → Ty
  | Value.number _ => Ty.number
  | Value.boolean _ => Ty.boolean
  | Value.text _ => Ty.text
  | Value.vec2 _ _ => Ty.vec2
  | Value.color _ _ _ _ => Ty.color

/-- Modelled from the spec: an input-slot binding, either a literal of the
slot's declared type or a reference to another node's output (spec 3). -/
inductive Binding where
  | lit : Value → Binding
  | ref : NodeId → Binding
deriving DecidableEq

/-- Modelled from the spec: a Document Graph node: identity, kind, input
slots, and execution-irrelevant metadata (spec 3). -/
structure DocNode where
  id : NodeId
  kind : String
  inputs : List Binding
  metadata : String
deriving DecidableEq

/-- Modelled from the spec: the mutable user-facing Document Graph; the node
list order is the original document insertion order (spec 2, 3). -/
structure DocumentGraph where
  nodes : List DocNode
deriving DecidableEq

/-- Modelled from the spec: the structural error taxonomy (spec 7). -/
inductive StructuralError where
  | UnknownNodeKind : StructuralError
  | TypeMismatch : Ty → Ty → StructuralError
  | DanglingReference : NodeId → Nat → StructuralError
  | CyclicGraph : StructuralError
  | OutputNotFound : StructuralError
deriving DecidableEq

/-- Modelled from the spec: an input-slot signature of a registered node kind
(name, declared type, optional default literal; spec 4.1). -/
structure InputSig where
  name : String
  ty : Ty
  defaultLit : Option Value

/-- Modelled from the spec: a Node Registry descriptor: input signatures,
output type, and the computation factory for the kind (spec 4.1); a compute
returning none models a failing node computation. -/
structure NodeDescriptor where
  input_sigs : List InputSig
  output_ty : Ty
  compute : List Value → Option Value

/-- Modelled from the spec: the static Node Registry, read-only after
startup, which also owns the coercion rules (spec 3, 4.1). -/
structure Registry where
  descs : List (String × NodeDescriptor)
  coercions : List (Ty × Ty)

/-- Modelled from the spec: registry lookup of a node kind (spec 4.1). -/
def Registry.lookup (reg : Registry) (kind : String) : Option NodeDescriptor :=
  (reg.descs.find? (fun p => decide (p.1 = kind))).map Prod.snd

/-- Modelled from the spec: an actual type is accepted for an expected slot
type when it is identical or registry-coercible to it (spec 3, 4.2). -/
def compatible (reg : Registry) (expected actual : Ty) : Bool :=
  decide (expected = actual) || decide ((actual, expected) ∈ reg.coercions)

/-- Modelled from the spec: node lookup by stable identity in the Document
Graph arena (spec 9). -/
def DocumentGraph.find (g : DocumentGraph) (id : NodeId) : Option DocNode :=
  g.nodes.find? (fun n => decide (n.id = id))

/-- The source node of a binding, when the binding is an edge. -/
def Binding.refTarget : Binding → Option NodeId
  | Binding.lit _ => none
  | Binding.ref src => some src

/-- Modelled from the spec: the identities a document node depends on through
its input bindings. -/
def DocNode.deps (nd : DocNode) : List NodeId :=
  nd.inputs.filterMap Binding.refTarget

/-- Modelled from the spec: the dependency edge relation of a Document Graph,
from a node to the targets of its input bindings. -/
def edge (g : DocumentGraph) (a b : NodeId) : Prop :=
  ∃ nd, g.find a = some nd ∧ b ∈ nd.deps

/-- Modelled from the spec: the declared type of what a binding feeds into a
slot: a literal's own type, or the source node's declared output type
(spec 4.2). -/
def bindingTy (reg : Registry) (g : DocumentGraph) : Binding → Option Ty
  | Binding.lit v => some (valueTy v)
  | Binding.ref src =>
    match g.find src with
    | none => none
    | some sn => (reg.lookup sn.kind).map NodeDescriptor.output_ty

/-- Modelled from the spec: `set_input` validates the binding against the
slot's declared type at bind time; an incompatible binding fails with
TypeMismatch(expected, actual) and the graph is left unchanged (spec 4.2).
The mutable Rust receiver is modelled by returning the possibly-updated graph
alongside the optional error. -/
def DocumentGraph.set_input (reg : Registry) (g : DocumentGraph) (id : NodeId)
    (slot : Nat) (b : Binding) : DocumentGraph × Option StructuralError :=
  match g.find id with
  | none => (g, some (StructuralError.DanglingReference id slot))
  | some nd =>
    match reg.lookup nd.kind with
    | none => (g, some StructuralError.UnknownNodeKind)
    | some d =>
      match d.input_sigs.get? slot with
      | none => (g, some (StructuralError.DanglingReference id slot))
      | some sig =>
        match bindingTy reg g b with
        | none => (g, some (StructuralError.DanglingReference id slot))
        | some actual =>
          if compatible reg sig.ty actual then
            (⟨g.nodes.map (fun n =>
                if n.id = id then { n with inputs := n.inputs.set slot b } else n)⟩,
             none)
          else
            (g, some (StructuralError.TypeMismatch sig.ty actual))

/-- First index satisfying a predicate (plain recursion, for easy proofs). -/
def findIndex {α : Type} (p : α → Bool) : List α → Option Nat
  | [] => none
  | a :: l => if p a then some 0 else (findIndex p l).map (· + 1)

/-- Option-valued traversal of a list (plain recursion, for easy proofs). -/
def mapOption {α β : Type} (f : α → Option β) : List α → Option (List β)
  | [] => some []
  | a :: l =>
    match f a with
    | none => none
    | some b =>
      match mapOption f l with
      | none => none
      | some bs => some (b :: bs)

/-- One step of the depth-first traversal over a list of pending dependencies:
`vis` is the visit of a single node at the smaller fuel. -/
def visitManyF (vis : NodeId → List NodeId → Option (List NodeId)) :
    List NodeId → List NodeId → Option (List NodeId)
  | [], finished => some finished
  | d :: ds, finished =>
    match vis d finished with
    | none => none
    | some f => visitManyF vis ds f

/-- Modelled from the spec: the compiler's backward depth-first traversal with
a visiting set (spec 4.3 steps 1-2).  `path` is the current recursion path:
meeting a node already on it signals a cycle (`none`); `finished` accumulates
reachable nodes in dependency-first (postorder) ordering.  Fuel makes the
recursion structural; running out of fuel is also reported as a cycle, and the
caller supplies more fuel than any acyclic path can consume.  A missing node
is skipped here and reported as a dangling reference by a later phase. -/
def visit (g : DocumentGraph) : Nat → List NodeId → NodeId → List NodeId → Option (List NodeId)
  | 0, _, _, _ => none
  | Nat.succ fuel, path, id, finished =>
    if id ∈ path then none
    else if id ∈ finished then some finished
    else
      match g.find id with
      | none => some finished
      | some nd =>
        match visitManyF (fun d fin => visit g fuel (id :: path) d fin) nd.deps finished with
        | none => none
        | some f => some (f ++ [id])

/-- Modelled from the spec: the reachability-plus-cycle-detection traversal of
compile, started at the requested output (spec 4.3 steps 1-2). -/
def traverse (g : DocumentGraph) (out : NodeId) : Option (List NodeId) :=
  visit g (g.nodes.length + 1) [] out []

/-- Modelled from the spec: first dangling input slot of a node, if any
(spec 4.2). -/
def nodeDangling (g : DocumentGraph) (nd : DocNode) : Option Nat :=
  findIndex (fun b =>
    match b with
    | Binding.ref s => (g.find s).isNone
    | Binding.lit _ => false) nd.inputs

/-- Modelled from the spec: the dangling-reference scan over the reachable
nodes, reporting the offending node and slot (spec 4.2, 7). -/
def findDangling (g : DocumentGraph) : List NodeId → Option (NodeId × Nat)
  | [] => none
  | id :: rest =>
    match g.find id with
    | none => some (id, 0)
    | some nd =>
      match nodeDangling g nd with
      | some slot => some (id, slot)
      | none => findDangling g rest

/-- Modelled from the spec: per-edge type resolution of one node's bindings
against its declared input signatures (spec 4.3 step 3). -/
def checkPairs (reg : Registry) (g : DocumentGraph) :
    List (Binding × InputSig) → Option StructuralError
  | [] => none
  | (b, sig) :: rest =>
    match bindingTy reg g b with
    | none => some StructuralError.UnknownNodeKind
    | some actual =>
      if compatible reg sig.ty actual then checkPairs reg g rest
      else some (StructuralError.TypeMismatch sig.ty actual)

/-- Modelled from the spec: the type-resolution pass over the reachable nodes
(spec 4.3 step 3); an unregistered kind fails with UnknownNodeKind. -/
def typeCheck (reg : Registry) (g : DocumentGraph) : List NodeId → Option StructuralError
  | [] => none
  | id :: rest =>
    match g.find id with
    | none => some (StructuralError.DanglingReference id 0)
    | some nd =>
      match reg.lookup nd.kind with
      | none => some StructuralError.UnknownNodeKind
      | some d =>
        match checkPairs reg g (nd.inputs.zip d.input_sigs) with
        | some e => some e
        | none => typeCheck reg g rest

/-- Modelled from the spec: a proto-node argument, an inlined literal or a
back-reference by ordinal to an earlier proto-node (spec 3). -/
inductive Arg where
  | lit : Value → Arg
  | backref : Nat → Arg
deriving DecidableEq

/-- Modelled from the spec: a proto-node: either a constant-folded literal or
an operation with resolved kind and arguments (spec 3, 4.3 step 4). -/
inductive ProtoNode where
  | literal : NodeId → Value → ProtoNode
  | op : NodeId → String → List Arg → ProtoNode
deriving DecidableEq

/-- The originating document identity of a proto-node (the cache key unit). -/
def ProtoNode.nodeId : ProtoNode → NodeId
  | ProtoNode.literal i _ => i
  | ProtoNode.op i _ _ => i

/-- The identity of a proto-node that still runs a computation, if any. -/
def ProtoNode.opId : ProtoNode → Option NodeId
  | ProtoNode.op i _ _ => some i
  | ProtoNode.literal _ _ => none

/-- The argument list of a proto-node (a folded literal has none). -/
def ProtoNode.argsOf : ProtoNode → List Arg
  | ProtoNode.op _ _ args => args
  | ProtoNode.literal _ _ => []

/-- Modelled from the spec: the compiled, immutable Proto Graph: the ordered
proto-nodes plus the ordinal of the requested output (spec 3). -/
structure ProtoGraph where
  nodes : List ProtoNode
  output : Nat
deriving DecidableEq

/-- Modelled from the spec: resolution of one document binding against the
proto-nodes already emitted: a literal is inlined; a reference to an already
folded literal proto-node is inlined as well (transitive constant folding),
and any other reference becomes a back-reference by ordinal (spec 4.3). -/
def resolveArg (acc : List ProtoNode) : Binding → Option Arg
  | Binding.lit v => some (Arg.lit v)
  | Binding.ref src =>
    match findIndex (fun pn => decide (pn.nodeId = src)) acc with
    | none => none
    | some j =>
      match acc.get? j with
      | some (ProtoNode.literal _ v) => some (Arg.lit v)
      | _ => some (Arg.backref j)

/-- The literal payload of an argument, if it is one. -/
def Arg.litValue : Arg → Option Value
  | Arg.lit v => some v
  | Arg.backref _ => none

/-- Modelled from the spec: emission of proto-nodes in the dependency-first
order computed by the traversal, folding any node all of whose arguments
resolved to literals by running its computation at compile time
(spec 4.3 steps 4-5). -/
def buildProto (reg : Registry) (g : DocumentGraph) :
    List NodeId → List ProtoNode → Except StructuralError (List ProtoNode)
  | [], acc => Except.ok acc
  | id :: rest, acc =>
    match g.find id with
    | none => Except.error (StructuralError.DanglingReference id 0)
    | some nd =>
      match mapOption (resolveArg acc) nd.inputs with
      | none => Except.error (StructuralError.DanglingReference id 0)
      | some args =>
        match reg.lookup nd.kind with
        | none => Except.error StructuralError.UnknownNodeKind
        | some d =>
          match mapOption Arg.litValue args with
          | some vals =>
            match d.compute vals with
            | some v => buildProto reg g rest (acc ++ [ProtoNode.literal id v])
            | none => buildProto reg g rest (acc ++ [ProtoNode.op id nd.kind args])
          | none => buildProto reg g rest (acc ++ [ProtoNode.op id nd.kind args])

/-- Modelled from the spec: `compile(DocumentGraph, Registry, requested
output) -> ProtoGraph` (spec 4.3): output presence, reachability with cycle
detection, dangling-reference check, type resolution, then ordered emission
with constant folding; failures are reported and nothing partial is
returned. -/
def compile (reg : Registry) (g : DocumentGraph) (out : NodeId) :
    Except StructuralError ProtoGraph :=
  match g.find out with
  | none => Except.error StructuralError.OutputNotFound
  | some _ =>
    match traverse g out with
    | none => Except.error StructuralError.CyclicGraph
    | some f =>
      match findDangling g f with
      | some (n, s) => Except.error (StructuralError.DanglingReference n s)
      | none =>
        match typeCheck reg g f with
        | some e => Except.error e
        | none =>
          match buildProto reg g f [] with
          | Except.error e => Except.error e
          | Except.ok ns =>
            match findIndex (fun pn => decide (pn.nodeId = out)) ns with
            | none => Except.error StructuralError.OutputNotFound
            | some i => Except.ok ⟨ns, i⟩

/-- Modelled from the spec: a cache entry: node identity, input fingerprint,
and the stored value (spec 3); the deterministic digest of the effective
inputs is modelled as the list of resolved argument values itself. -/
structure CacheEntry where
  id : NodeId
  fingerprint : List Value
  value : Value
deriving DecidableEq

/-- Modelled from the spec: the memoization cache (spec 4.5). -/
abbrev Cache := List CacheEntry

/-- Modelled from the spec: cache lookup by node identity and fingerprint
(spec 4.5). -/
def cacheGet (c : Cache) (id : NodeId) (fp : List Value) : Option Value :=
  match c with
  | [] => none
  | e :: rest =>
    if e.id = id ∧ e.fingerprint = fp then some e.value else cacheGet rest id fp

/-- Removal of a node identity's entries, used on insertion so that the cache
keeps the most recent output per node identity (spec 2, 4.5). -/
def cacheRemove (c : Cache) (id : NodeId) : Cache :=
  match c with
  | [] => []
  | e :: rest =>
    if e.id = id then cacheRemove rest id else e :: cacheRemove rest id

/-- Modelled from the spec: cache insertion; the cache keeps the most recent
output per node identity (spec 2, 4.5). -/
def cachePut (c : Cache) (id : NodeId) (fp : List Value) (v : Value) : Cache :=
  ⟨id, fp, v⟩ :: cacheRemove c id

/-- Modelled from the spec: evaluation errors: a malformed back-reference, or
a node computation failure reported with the node's identity and kind
(spec 4.4, 7). -/
inductive EvalError where
  | badReference : EvalError
  | nodeFailure : NodeId → String → EvalError
deriving DecidableEq

/-- Resolution of a proto-node argument against the values already computed
in this pass (spec 4.4). -/
def resolveArgValue (res : List Value) : Arg → Option Value
  | Arg.lit v => some v
  | Arg.backref j => res.get? j

/-- Modelled from the spec: the executor's walk of the proto-nodes in stored
topological order (spec 4.4), threading the per-pass results, the cache, and
the count of node computations actually invoked.  A folded literal is used
directly; an operation first consults the cache with (identity, fingerprint),
and only on a miss invokes the kind's computation and stores the result. -/
def runNodes (reg : Registry) :
    List ProtoNode → List Value → Cache → Nat → Except EvalError (List Value × Cache × Nat)
  | [], res, c, k => Except.ok (res, c, k)
  | ProtoNode.literal _ v :: rest, res, c, k => runNodes reg rest (res ++ [v]) c k
  | ProtoNode.op id kind args :: rest, res, c, k =>
    match mapOption (resolveArgValue res) args with
    | none => Except.error EvalError.badReference
    | some vals =>
      match cacheGet c id vals with
      | some v => runNodes reg rest (res ++ [v]) c k
      | none =>
        match reg.lookup kind with
        | none => Except.error (EvalError.nodeFailure id kind)
        | some d =>
          match d.compute vals with
          | none => Except.error (EvalError.nodeFailure id kind)
          | some v => runNodes reg rest (res ++ [v]) (cachePut c id vals v) (k + 1)

/-- Modelled from the spec: `evaluate(ProtoGraph, Cache) -> Value` (spec 4.4),
returning the requested output's value, the updated cache, and how many node
computations ran. -/
def evaluate (reg : Registry) (p : ProtoGraph) (c : Cache) :
    Except EvalError (Value × Cache × Nat) :=
  match runNodes reg p.nodes [] c 0 with
  | Except.error e => Except.error e
  | Except.ok (res, cF, k) =>
    match res.get? p.output with
    | none => Except.error EvalError.badReference
    | some v => Except.ok (v, cF, k)

/-- The identities of the proto-nodes that still run computations. -/
def opIds (ns : List ProtoNode) : List NodeId :=
  ns.filterMap ProtoNode.opId

/-- Dependency-closed, strictly backward ordering of a traversal result:
every existing dependency of the node at position i sits at a strictly
earlier position. -/
def GoodAt (g : DocumentGraph) (f : List NodeId) : Prop :=
  ∀ i id nd, f.get? i = some id → g.find id = some nd →
    ∀ d ∈ nd.deps, g.find d = none ∨ ∃ j, j < i ∧ f.get? j = some d

/-- The Proto Graph back-reference invariant: every back-reference argument
of the proto-node at position i points strictly backward (spec 3). -/
def backrefsLt (ns : List ProtoNode) : Prop :=
  ∀ i pn, ns.get? i = some pn → ∀ a ∈ pn.argsOf, ∀ j, a = Arg.backref j → j < i

/-- A demo registry descriptor: numeric addition. -/
def demoAddDesc : NodeDescriptor :=
  ⟨[⟨"a", Ty.number, none⟩, ⟨"b", Ty.number, none⟩], Ty.number,
    fun vs =>
      match vs with
      | [Value.number a, Value.number b] => some (Value.number (a + b))
      | _ => none⟩

/-- A demo registry descriptor: an externally sourced value, whose computation
fails unless its result is already cached (it blocks constant folding). -/
def demoExtDesc : NodeDescriptor := ⟨[], Ty.number, fun _ => none⟩

/-- A demo registry descriptor: numeric doubling. -/
def demoDoubleDesc : NodeDescriptor :=
  ⟨[⟨"x", Ty.number, none⟩], Ty.number,
    fun vs =>
      match vs with
      | [Value.number a] => some (Value.number (2 * a))
      | _ => none⟩

/-- The demo registry used by the concrete witnesses. -/
def demoReg : Registry :=
  ⟨[("add", demoAddDesc), ("ext", demoExtDesc), ("double", demoDoubleDesc)], []⟩

/-- Demo document graph: a single add node over two literals (the spec's
constant-folding scenario). -/
def demoAddGraph : DocumentGraph :=
  ⟨[⟨0, "add", [Binding.lit (Value.number 2), Binding.lit (Value.number 3)], ""⟩]⟩

/-- The Proto Graph compile produces for the demo add graph. -/
def demoAddProto : ProtoGraph := ⟨[ProtoNode.literal 0 (Value.number 5)], 0⟩

/-- Demo document graph: an external source feeding a doubling node. -/
def demoChainGraph : DocumentGraph :=
  ⟨[⟨0, "ext", [], ""⟩, ⟨1, "double", [Binding.ref 0], ""⟩]⟩

/-- The Proto Graph compile produces for the demo chain graph. -/
def demoChainProto : ProtoGraph :=
  ⟨[ProtoNode.op 0 "ext" [], ProtoNode.op 1 "double" [Arg.backref 0]], 1⟩

/-- A pre-seeded cache holding the external source's value. -/
def demoCache0 : Cache := [⟨0, [], Value.number 7⟩]

/-- The cache state after the first demo evaluation. -/
def demoCache1 : Cache :=
  [⟨1, [Value.number 7], Value.number 14⟩, ⟨0, [], Value.number 7⟩]

/-- Demo document graph with a self-loop. -/
def demoLoopGraph : DocumentGraph := ⟨[⟨0, "double", [Binding.ref 0], ""⟩]⟩

/-- Demo document graph with a single external node (for dead-node tests). -/
def demoExtGraph : DocumentGraph := ⟨[⟨0, "ext", [], ""⟩]⟩

/-- The Proto Graph compile produces for the single external node. -/
def demoExtProto : ProtoGraph := ⟨[ProtoNode.op 0 "ext" []], 0⟩

/-- The test fixture of transform.rs (`set_up_open_subpath`). -/
def demoOpenSubpath : Subpath :=
  ⟨[⟨(20, 30), none, some (75, 85)⟩,
    ⟨(80, 90), none, some (40, 30)⟩,
    ⟨(100, 100), none, none⟩,
    ⟨(60, 45), none, some (10, 10)⟩], false⟩

/-- The test fixture of transform.rs (`set_up_closed_subpath`). -/
def demoClosedSubpath : Subpath :=
  ⟨demoOpenSubpath.manipulator_groups, true⟩

/-! ## Theorems -/

theorem getLast_some_of_ne_nil {α : Type} (l : List α) (h : l ≠ []) :
    ∃ a, l.getLast? = some a := by
  cases hl : l.getLast? with
  | some a => exact ⟨a, rfl⟩
  | none =>
    have hs := List.getLast?_isSome.mpr h
    rw [hl] at hs
    simp at hs

theorem iter_length (s : Subpath) : s.iter.length = s.len_segments := by
  unfold Subpath.iter Subpath.len_segments
  cases hg : s.manipulator_groups with
  | nil => simp
  | cons g rest =>
    cases hc : s.closed <;> simp [List.length_zipWith]

theorem iter_ne_nil (s : Subpath) (h : 1 ≤ s.len_segments) : s.iter ≠ [] := by
  intro hnil
  rw [← iter_length, hnil] at h
  simp at h

theorem split_target_some (s : Subpath) (k : Nat) (h : s.iter ≠ []) :
    ∃ c, (s.iter.get? k).orElse (fun _ => s.iter.getLast?) = some c := by
  cases hk : s.iter.get? k with
  | some c => exact ⟨c, rfl⟩
  | none =>
    obtain ⟨a, ha⟩ := getLast_some_of_ne_nil s.iter h
    exact ⟨a, by simp [Option.orElse, ha]⟩

theorem split_eq_splitAtCurve (s : Subpath) (t : ℚ) (h0 : 0 ≤ t) (h1 : t ≤ 1)
    (hne : s.iter ≠ []) :
    ∃ c, s.split (ComputeType.Parametric t) = s.splitAtCurve t c := by
  simp only [Subpath.split]
  rw [if_pos ⟨h0, h1⟩]
  obtain ⟨c, hc⟩ := split_target_some s (splitIndex s t).toNat hne
  rw [hc]
  exact ⟨c, rfl⟩

theorem splitAtCurve_shape (s : Subpath) (t : ℚ) (c : Bezier) (h : s.iter ≠ []) :
    ∃ r, s.splitAtCurve t c = some r ∧ r.1.closed = false ∧
      (s.closed = true → r.2 = none) ∧
      (s.closed = false → ∃ b, r.2 = some b ∧ b.closed = false) := by
  unfold Subpath.splitAtCurve
  by_cases hct : s.closed = true ∧ (t = 0 ∨ t = 1)
  · rw [if_pos hct]
    obtain ⟨lc, hlc⟩ := getLast_some_of_ne_nil s.iter h
    rw [hlc]
    refine ⟨_, rfl, rfl, fun _ => rfl, fun hco => ?_⟩
    rw [hct.1] at hco
    cases hco
  · rw [if_neg hct]
    by_cases hcl : s.closed = true
    · rw [if_pos hcl]
      refine ⟨_, rfl, rfl, fun _ => rfl, fun hco => ?_⟩
      rw [hcl] at hco
      cases hco
    · rw [if_neg hcl]
      exact ⟨_, rfl, rfl, fun hc2 => absurd hc2 hcl, fun _ => ⟨_, rfl, rfl⟩⟩

/-- C1: for every Subpath with at least one curve segment and every t with
0 ≤ t ≤ 1, `Subpath::split(ComputeType::Parametric(t))` returns a result
without panicking: the range assertion holds by hypothesis, every unwrap of
an iterator element succeeds (including the fallback to the last curve), and
the vector index arithmetic stays in bounds. -/
theorem split_parametric_no_panic (s : Subpath) (t : ℚ)
    (hseg : 1 ≤ s.len_segments) (h0 : 0 ≤ t) (h1 : t ≤ 1) :
    (s.split (ComputeType.Parametric t)).isSome = true := by
  have hne := iter_ne_nil s hseg
  obtain ⟨c, hc⟩ := split_eq_splitAtCurve s t h0 h1 hne
  obtain ⟨r, hr, _⟩ := splitAtCurve_shape s t c hne
  rw [hc, hr]
  rfl

/-- C1 witness: the open test fixture of transform.rs split at t = 1/5. -/
theorem split_parametric_no_panic_witness :
    (demoOpenSubpath.split (ComputeType.Parametric (1/5))).isSome = true :=
  split_parametric_no_panic demoOpenSubpath (1/5) (by decide) (by decide) (by decide)

/-- C2 counterexample: the claim quantifies over every closed Subpath and
every t in the unit range, but on the empty closed Subpath the split panics
(the unwrap of the last curve of the empty iterator), modelled as `none`, so
no pair at all is returned. -/
theorem split_empty_closed_panics :
    (Subpath.mk [] true).closed = true ∧ (0:ℚ) ≤ 0 ∧ (0:ℚ) ≤ 1 ∧
    Subpath.split ⟨[], true⟩ (ComputeType.Parametric 0) = none := by
  decide

/-- C2 (amended with the nonempty hypothesis the panic on the empty subpath
forces): for every Subpath with at least one curve segment and t in the unit
range, a closed subpath splits into a single open subpath and no second
component, while an open subpath splits into two open subpaths. -/
theorem split_open_closed_shape (s : Subpath) (t : ℚ)
    (hseg : 1 ≤ s.len_segments) (h0 : 0 ≤ t) (h1 : t ≤ 1) :
    (s.closed = true → ∃ r, s.split (ComputeType.Parametric t) = some (r, none) ∧
      r.closed = false) ∧
    (s.closed = false → ∃ r1 r2, s.split (ComputeType.Parametric t) = some (r1, some r2) ∧
      r1.closed = false ∧ r2.closed = false) := by
  have hne := iter_ne_nil s hseg
  obtain ⟨c, hc⟩ := split_eq_splitAtCurve s t h0 h1 hne
  obtain ⟨⟨ra, rb⟩, hr, hra, hn, hs⟩ := splitAtCurve_shape s t c hne
  constructor
  · intro hcl
    have hrb : rb = none := hn hcl
    rw [hrb] at hr
    exact ⟨ra, by rw [hc, hr], hra⟩
  · intro hco
    obtain ⟨b, hb, hbc⟩ := hs hco
    have hrb : rb = some b := hb
    rw [hrb] at hr
    exact ⟨ra, b, by rw [hc, hr], hra, hbc⟩

/-- C2 witness: the closed and open test fixtures of transform.rs split at
t = 1/5 exhibit the two shapes. -/
theorem split_open_closed_shape_witness :
    ((demoClosedSubpath.closed = true →
        ∃ r, demoClosedSubpath.split (ComputeType.Parametric (1/5)) = some (r, none) ∧
          r.closed = false) ∧
      (demoClosedSubpath.closed = false →
        ∃ r1 r2, demoClosedSubpath.split (ComputeType.Parametric (1/5)) = some (r1, some r2) ∧
          r1.closed = false ∧ r2.closed = false)) :=
  split_open_closed_shape demoClosedSubpath (1/5) (by decide) (by decide) (by decide)

/-- C3: for every Subpath, splitting with a Euclidean or
EuclideanWithinError compute type hits the `todo!()` branches and panics
(modelled as `none`); only the parametric variant produces a value. -/
theorem split_euclidean_unimplemented :
    ∀ (s : Subpath) (t eps : ℚ),
      s.split (ComputeType.Euclidean t) = none ∧
      s.split (ComputeType.EuclideanWithinError t eps) = none :=
  fun _ _ _ => ⟨rfl, rfl⟩

/-- C10: the DVec2 wrapper conversions are mutually inverse and preserve the
x and y fields exactly. -/
theorem dvec2_roundtrip :
    ∀ (v : GlamDVec2) (w : DVec2),
      DVec2.into (DVec2.from_glam v) = v ∧ DVec2.from_glam (DVec2.into w) = w ∧
      (DVec2.from_glam v).x = v.x ∧ (DVec2.from_glam v).y = v.y ∧
      (DVec2.into w).x = w.x ∧ (DVec2.into w).y = w.y := by
  intro v w
  cases v
  cases w
  exact ⟨rfl, rfl, rfl, rfl, rfl, rfl⟩

/-- C4: compilation is deterministic: two compiles of the same Document Graph
snapshot for the same requested output produce Proto Graphs with the same
proto-node sequence (hence the same constant-folded literals) and the same
output ordinal. -/
theorem compile_deterministic (reg : Registry) (g : DocumentGraph) (out : NodeId)
    (p q : ProtoGraph) (h1 : compile reg g out = Except.ok p)
    (h2 : compile reg g out = Except.ok q) :
    p.nodes = q.nodes ∧ p.output = q.output := by
  rw [h1] at h2
  injection h2 with h
  exact ⟨by rw [h], by rw [h]⟩

/-- C4 witness: the constant-folding demo graph compiled twice. -/
theorem compile_deterministic_witness :
    demoAddProto.nodes = demoAddProto.nodes ∧ demoAddProto.output = demoAddProto.output :=
  compile_deterministic demoReg demoAddGraph 0 demoAddProto demoAddProto rfl rfl

/-- C8: set_input is atomic on failure: when the binding's type is neither
identical nor registry-coercible to the slot's declared type, set_input
returns TypeMismatch(expected, actual) and the returned Document Graph is the
unmodified input graph. -/
theorem set_input_type_mismatch (reg : Registry) (g : DocumentGraph) (id : NodeId)
    (slot : Nat) (b : Binding) (nd : DocNode) (d : NodeDescriptor) (sig : InputSig)
    (actual : Ty)
    (hfind : g.find id = some nd)
    (hlook : reg.lookup nd.kind = some d)
    (hsig : d.input_sigs.get? slot = some sig)
    (hty : bindingTy reg g b = some actual)
    (hcompat : compatible reg sig.ty actual = false) :
    DocumentGraph.set_input reg g id slot b =
      (g, some (StructuralError.TypeMismatch sig.ty actual)) := by
  rw [List.get?_eq_getElem?] at hsig
  simp [DocumentGraph.set_input, hfind, hlook, hsig, hty, hcompat]

/-- C8 witness: binding a boolean literal into the numeric slot of the demo
doubling node is rejected with TypeMismatch and the graph is unchanged. -/
theorem set_input_type_mismatch_witness :
    DocumentGraph.set_input demoReg demoChainGraph 1 0 (Binding.lit (Value.boolean true)) =
      (demoChainGraph, some (StructuralError.TypeMismatch Ty.number Ty.boolean)) :=
  set_input_type_mismatch demoReg demoChainGraph 1 0 (Binding.lit (Value.boolean true))
    ⟨1, "double", [Binding.ref 0], ""⟩ demoDoubleDesc ⟨"x", Ty.number, none⟩ Ty.boolean
    rfl rfl rfl rfl rfl

theorem findIndex_lt {α : Type} (p : α → Bool) :
    ∀ (l : List α) (j : Nat), findIndex p l = some j → j < l.length := by
  intro l
  induction l with
  | nil => intro j h; simp [findIndex] at h
  | cons a l ih =>
    intro j h
    simp only [findIndex] at h
    by_cases hp : p a
    · rw [if_pos hp] at h
      injection h with h
      subst h
      simp
    · rw [if_neg hp] at h
      cases hfi : findIndex p l with
      | none => rw [hfi] at h; cases h
      | some j2 =>
        rw [hfi] at h
        simp only [Option.map] at h
        injection h with h
        have hlt := ih j2 hfi
        simp only [List.length_cons]
        omega

theorem resolveArg_backref (acc : List ProtoNode) (b : Binding) (a : Arg) (j : Nat)
    (h : resolveArg acc b = some a) (ha : a = Arg.backref j) : j < acc.length := by
  cases b with
  | lit v =>
    simp only [resolveArg] at h
    injection h with h
    rw [← h] at ha
    cases ha
  | ref src =>
    simp only [resolveArg] at h
    split at h
    · cases h
    · rename_i j2 hfi
      have hlt := findIndex_lt _ acc j2 hfi
      split at h
      · injection h with h
        rw [← h] at ha
        cases ha
      · injection h with h
        rw [← h] at ha
        injection ha with hj
        omega

theorem mapOption_mem {α β : Type} (f : α → Option β) :
    ∀ (l : List α) (bs : List β), mapOption f l = some bs →
      ∀ b ∈ bs, ∃ a ∈ l, f a = some b := by
  intro l
  induction l with
  | nil =>
    intro bs h b hb
    simp only [mapOption] at h
    injection h with h
    subst h
    cases hb
  | cons a l ih =>
    intro bs h b hb
    simp only [mapOption] at h
    cases hfa : f a with
    | none => rw [hfa] at h; cases h
    | some b0 =>
      rw [hfa] at h
      cases hm : mapOption f l with
      | none => rw [hm] at h; cases h
      | some bs0 =>
        rw [hm] at h
        injection h with h
        subst h
        rcases List.mem_cons.mp hb with hb | hb
        · exact ⟨a, List.mem_cons_self a l, by rw [hfa, hb]⟩
        · obtain ⟨a2, ha2, hfa2⟩ := ih bs0 hm b hb
          exact ⟨a2, List.mem_cons_of_mem a ha2, hfa2⟩

theorem backrefsLt_nil : backrefsLt [] := by
  intro i pn hget
  exact Option.noConfusion hget

theorem backrefsLt_append (acc : List ProtoNode) (pn : ProtoNode)
    (hacc : backrefsLt acc)
    (hpn : ∀ a ∈ pn.argsOf, ∀ j, a = Arg.backref j → j < acc.length) :
    backrefsLt (acc ++ [pn]) := by
  intro i pn2 hget a ha j haj
  rcases Nat.lt_trichotomy i acc.length with hi | hi | hi
  · rw [List.get?_append hi] at hget
    exact hacc i pn2 hget a ha j haj
  · subst hi
    rw [List.get?_concat_length] at hget
    injection hget with hget
    subst hget
    exact Nat.lt_of_lt_of_le (hpn a ha j haj) (Nat.le_refl _)
  · have hnone : (acc ++ [pn]).get? i = none := by
      rw [List.get?_eq_none]
      simp only [List.length_append, List.length_cons, List.length_nil]
      omega
    rw [hnone] at hget
    cases hget

theorem buildProto_backrefs (reg : Registry) (g : DocumentGraph) :
    ∀ (ids : List NodeId) (acc ns : List ProtoNode),
      backrefsLt acc → buildProto reg g ids acc = Except.ok ns → backrefsLt ns := by
  intro ids
  induction ids with
  | nil =>
    intro acc ns hacc h
    simp only [buildProto] at h
    injection h with h
    rw [← h]
    exact hacc
  | cons id rest ih =>
    intro acc ns hacc h
    simp only [buildProto] at h
    split at h
    · cases h
    · rename_i nd hf
      split at h
      · cases h
      · rename_i args hargs
        have hargsOk : ∀ a ∈ args, ∀ j, a = Arg.backref j → j < acc.length := by
          intro a ha j haj
          obtain ⟨bnd, _, hbres⟩ := mapOption_mem (resolveArg acc) nd.inputs args hargs a ha
          exact resolveArg_backref acc bnd a j hbres haj
        split at h
        · cases h
        · rename_i d hl
          split at h
          · rename_i vals hlv
            split at h
            · refine ih _ _ (backrefsLt_append acc _ hacc ?_) h
              intro a ha j haj
              simp [ProtoNode.argsOf] at ha
            · exact ih _ _ (backrefsLt_append acc (ProtoNode.op id nd.kind args) hacc hargsOk) h
          · exact ih _ _ (backrefsLt_append acc (ProtoNode.op id nd.kind args) hacc hargsOk) h

theorem compile_ok_inv (reg : Registry) (g : DocumentGraph) (out : NodeId)
    (p : ProtoGraph) (h : compile reg g out = Except.ok p) :
    ∃ f ns, traverse g out = some f ∧ findDangling g f = none ∧
      typeCheck reg g f = none ∧ buildProto reg g f [] = Except.ok ns ∧
      p.nodes = ns := by
  unfold compile at h
  split at h
  · cases h
  · split at h
    · cases h
    · rename_i f htr
      split at h
      · cases h
      · rename_i hdang
        split at h
        · cases h
        · rename_i htc
          split at h
          · cases h
          · rename_i ns hb
            split at h
            · cases h
            · rename_i i hidx
              injection h with h
              exact ⟨f, ns, htr, hdang, htc, hb, by rw [← h]⟩

/-- C9: in every Proto Graph produced by compile, every back-reference
argument of every proto-node refers to a strictly smaller ordinal position,
so the compiled graph is acyclic by construction. -/
theorem proto_backrefs_backward (reg : Registry) (g : DocumentGraph) (out : NodeId)
    (p : ProtoGraph) (h : compile reg g out = Except.ok p) : backrefsLt p.nodes := by
  obtain ⟨f, ns, _, _, _, hb, hpn⟩ := compile_ok_inv reg g out p h
  rw [hpn]
  exact buildProto_backrefs reg g f [] ns backrefsLt_nil hb

/-- C9 witness: the compiled demo chain graph satisfies the back-reference
invariant. -/
theorem proto_backrefs_backward_witness : backrefsLt demoChainProto.nodes :=
  proto_backrefs_backward demoReg demoChainGraph 1 demoChainProto rfl

theorem visitManyF_append (vis : NodeId → List NodeId → Option (List NodeId))
    (H : ∀ d fin f, vis d fin = some f → ∃ e, f = fin ++ e) :
    ∀ (ds fin f : List NodeId), visitManyF vis ds fin = some f → ∃ e, f = fin ++ e := by
  intro ds
  induction ds with
  | nil =>
    intro fin f h
    simp only [visitManyF] at h
    injection h with h
    exact ⟨[], by rw [← h]; simp⟩
  | cons d ds ih =>
    intro fin f h
    simp only [visitManyF] at h
    split at h
    · cases h
    · rename_i f1 hf1
      obtain ⟨e1, he1⟩ := H d fin f1 hf1
      obtain ⟨e2, he2⟩ := ih f1 f h
      exact ⟨e1 ++ e2, by rw [he2, he1, List.append_assoc]⟩

theorem visit_append (g : DocumentGraph) :
    ∀ (fuel : Nat) (path : List NodeId) (id : NodeId) (fin f : List NodeId),
      visit g fuel path id fin = some f → ∃ e, f = fin ++ e := by
  intro fuel
  induction fuel with
  | zero => intro path id fin f h; simp [visit] at h
  | succ fuel ih =>
    intro path id fin f h
    simp only [visit] at h
    split at h
    · cases h
    · split at h
      · injection h with h
        exact ⟨[], by rw [← h]; simp⟩
      · split at h
        · injection h with h
          exact ⟨[], by rw [← h]; simp⟩
        · rename_i nd hnd
          split at h
          · cases h
          · rename_i f1 hf1
            injection h with h
            obtain ⟨e, he⟩ := visitManyF_append _
              (fun d fin2 f2 hv => ih (id :: path) d fin2 f2 hv) nd.deps fin f1 hf1
            exact ⟨e ++ [id], by rw [← h, he, List.append_assoc]⟩

theorem visit_mem (g : DocumentGraph) (fuel : Nat) (path : List NodeId) (id : NodeId)
    (fin f : List NodeId) (h : visit g fuel path id fin = some f) :
    id ∈ f ∨ g.find id = none := by
  cases fuel with
  | zero => simp [visit] at h
  | succ fuel =>
    simp only [visit] at h
    split at h
    · cases h
    · split at h
      · rename_i hmem
        injection h with h
        exact Or.inl (by rw [← h]; exact hmem)
      · split at h
        · rename_i hnone
          exact Or.inr hnone
        · rename_i nd hnd
          split at h
          · cases h
          · injection h with h
            exact Or.inl (by rw [← h]; simp)

theorem visitManyF_path (vis : NodeId → List NodeId → Option (List NodeId))
    (P : List NodeId)
    (H : ∀ d fin f, vis d fin = some f → ∀ y ∈ P, y ∈ f → y ∈ fin) :
    ∀ ds fin f, visitManyF vis ds fin = some f → ∀ y ∈ P, y ∈ f → y ∈ fin := by
  intro ds
  induction ds with
  | nil =>
    intro fin f h y hyP hyf
    simp only [visitManyF] at h
    injection h with h
    rw [← h] at hyf
    exact hyf
  | cons d ds ih =>
    intro fin f h y hyP hyf
    simp only [visitManyF] at h
    split at h
    · cases h
    · rename_i f1 hf1
      exact H d fin f1 hf1 y hyP (ih f1 f h y hyP hyf)

theorem visit_path (g : DocumentGraph) :
    ∀ (fuel : Nat) (path : List NodeId) (id : NodeId) (fin f : List NodeId),
      visit g fuel path id fin = some f → ∀ y ∈ path, y ∈ f → y ∈ fin := by
  intro fuel
  induction fuel with
  | zero => intro path id fin f h; simp [visit] at h
  | succ fuel ih =>
    intro path id fin f h y hyp hyf
    simp only [visit] at h
    split at h
    · cases h
    · rename_i hidpath
      split at h
      · injection h with h
        rw [← h] at hyf
        exact hyf
      · split at h
        · injection h with h
          rw [← h] at hyf
          exact hyf
        · rename_i nd hnd
          split at h
          · cases h
          · rename_i f1 hf1
            injection h with h
            rw [← h] at hyf
            rcases List.mem_append.mp hyf with hy1 | hy2
            · exact visitManyF_path (fun d fin2 => visit g fuel (id :: path) d fin2)
                (id :: path) (fun d fin2 f2 hv => ih (id :: path) d fin2 f2 hv)
                nd.deps fin f1 hf1 y (List.mem_cons_of_mem id hyp) hy1
            · have hyid : y = id := by simpa using hy2
              rw [hyid] at hyp
              exact absurd hyp hidpath

theorem visitManyF_nodup (vis : NodeId → List NodeId → Option (List NodeId))
    (H : ∀ d fin f, vis d fin = some f → fin.Nodup → f.Nodup) :
    ∀ ds fin f, visitManyF vis ds fin = some f → fin.Nodup → f.Nodup := by
  intro ds
  induction ds with
  | nil =>
    intro fin f h hnd
    simp only [visitManyF] at h
    injection h with h
    rw [← h]
    exact hnd
  | cons d ds ih =>
    intro fin f h hnd
    simp only [visitManyF] at h
    split at h
    · cases h
    · rename_i f1 hf1
      exact ih f1 f h (H d fin f1 hf1 hnd)

theorem visit_nodup (g : DocumentGraph) :
    ∀ (fuel : Nat) (path : List NodeId) (id : NodeId) (fin f : List NodeId),
      visit g fuel path id fin = some f → fin.Nodup → f.Nodup := by
  intro fuel
  induction fuel with
  | zero => intro path id fin f h; simp [visit] at h
  | succ fuel ih =>
    intro path id fin f h hnd
    simp only [visit] at h
    split at h
    · cases h
    · rename_i hidpath
      split at h
      · injection h with h
        rw [← h]
        exact hnd
      · rename_i hidfin
        split at h
        · injection h with h
          rw [← h]
          exact hnd
        · rename_i nd hnd2
          split at h
          · cases h
          · rename_i f1 hf1
            injection h with h
            have hf1nd : f1.Nodup := visitManyF_nodup _
              (fun d fin2 f2 hv => ih (id :: path) d fin2 f2 hv) nd.deps fin f1 hf1 hnd
            have hidf1 : id ∉ f1 := by
              intro hin
              exact hidfin (visitManyF_path (fun d fin2 => visit g fuel (id :: path) d fin2)
                (id :: path) (fun d fin2 f2 hv => visit_path g fuel (id :: path) d fin2 f2 hv)
                nd.deps fin f1 hf1 id (List.mem_cons_self id path) hin)
            rw [← h]
            rw [List.nodup_append]
            exact ⟨hf1nd, List.nodup_singleton id, by
              intro a ha hb
              have : a = id := by simpa using hb
              rw [this] at ha
              exact hidf1 ha⟩

theorem visitManyF_mem (g : DocumentGraph) (vis : NodeId → List NodeId → Option (List NodeId))
    (Happend : ∀ d fin f, vis d fin = some f → ∃ e, f = fin ++ e)
    (Hmem : ∀ d fin f, vis d fin = some f → d ∈ f ∨ g.find d = none) :
    ∀ ds fin f, visitManyF vis ds fin = some f → ∀ d ∈ ds, d ∈ f ∨ g.find d = none := by
  intro ds
  induction ds with
  | nil => intro fin f h d hd; cases hd
  | cons d0 ds ih =>
    intro fin f h d hd
    simp only [visitManyF] at h
    split at h
    · cases h
    · rename_i f1 hf1
      rcases List.mem_cons.mp hd with hd0 | hds
      · rcases Hmem d0 fin f1 hf1 with hin | hnone
        · obtain ⟨e, he⟩ := visitManyF_append vis Happend ds f1 f h
          rw [hd0]
          exact Or.inl (by rw [he]; exact List.mem_append_left e hin)
        · rw [hd0]
          exact Or.inr hnone
      · exact ih f1 f h d hds

theorem GoodAt_append (g : DocumentGraph) (f1 : List NodeId) (id : NodeId) (nd : DocNode)
    (hnd : g.find id = some nd) (hgood : GoodAt g f1)
    (hdeps : ∀ d ∈ nd.deps, d ∈ f1 ∨ g.find d = none) : GoodAt g (f1 ++ [id]) := by
  intro i id2 nd2 hget hfind d hd
  rcases Nat.lt_trichotomy i f1.length with hi | hi | hi
  · rw [List.get?_append hi] at hget
    rcases hgood i id2 nd2 hget hfind d hd with hnone | ⟨j, hj, hgj⟩
    · exact Or.inl hnone
    · exact Or.inr ⟨j, hj, by rw [List.get?_append (Nat.lt_trans hj hi)]; exact hgj⟩
  · subst hi
    rw [List.get?_concat_length] at hget
    injection hget with hget
    subst hget
    rw [hnd] at hfind
    injection hfind with hfind
    subst hfind
    rcases hdeps d hd with hin | hnone
    · obtain ⟨j, hj⟩ := List.mem_iff_get?.mp hin
      have hjlt : j < f1.length := by
        obtain ⟨hlt, _⟩ := List.get?_eq_some.mp hj
        exact hlt
      exact Or.inr ⟨j, hjlt, by rw [List.get?_append hjlt]; exact hj⟩
    · exact Or.inl hnone
  · have hnone : (f1 ++ [id]).get? i = none := by
      rw [List.get?_eq_none]
      simp only [List.length_append, List.length_cons, List.length_nil]
      omega
    rw [hnone] at hget
    cases hget

theorem visitManyF_good (g : DocumentGraph) (vis : NodeId → List NodeId → Option (List NodeId))
    (H : ∀ d fin f, vis d fin = some f → GoodAt g fin → GoodAt g f) :
    ∀ ds fin f, visitManyF vis ds fin = some f → GoodAt g fin → GoodAt g f := by
  intro ds
  induction ds with
  | nil =>
    intro fin f h hg
    simp only [visitManyF] at h
    injection h with h
    rw [← h]
    exact hg
  | cons d ds ih =>
    intro fin f h hg
    simp only [visitManyF] at h
    split at h
    · cases h
    · rename_i f1 hf1
      exact ih f1 f h (H d fin f1 hf1 hg)

theorem visit_good (g : DocumentGraph) :
    ∀ (fuel : Nat) (path : List NodeId) (id : NodeId) (fin f : List NodeId),
      visit g fuel path id fin = some f → GoodAt g fin → GoodAt g f := by
  intro fuel
  induction fuel with
  | zero => intro path id fin f h; simp [visit] at h
  | succ fuel ih =>
    intro path id fin f h hg
    simp only [visit] at h
    split at h
    · cases h
    · split at h
      · injection h with h
        rw [← h]
        exact hg
      · split at h
        · injection h with h
          rw [← h]
          exact hg
        · rename_i nd hnd
          split at h
          · cases h
          · rename_i f1 hf1
            injection h with h
            have hf1good : GoodAt g f1 := visitManyF_good g _
              (fun d fin2 f2 hv => ih (id :: path) d fin2 f2 hv) nd.deps fin f1 hf1 hg
            have hdeps : ∀ d ∈ nd.deps, d ∈ f1 ∨ g.find d = none :=
              visitManyF_mem g _
                (fun d fin2 f2 hv => visit_append g fuel (id :: path) d fin2 f2 hv)
                (fun d fin2 f2 hv => visit_mem g fuel (id :: path) d fin2 f2 hv)
                nd.deps fin f1 hf1
            rw [← h]
            exact GoodAt_append g f1 id nd hnd hf1good hdeps

theorem visitManyF_reach (g : DocumentGraph) (vis : NodeId → List NodeId → Option (List NodeId))
    (R : NodeId → NodeId → Prop)
    (H : ∀ d fin f, vis d fin = some f → ∀ m ∈ f, m ∈ fin ∨ R d m) :
    ∀ ds fin f, visitManyF vis ds fin = some f → ∀ m ∈ f, m ∈ fin ∨ ∃ d ∈ ds, R d m := by
  intro ds
  induction ds with
  | nil =>
    intro fin f h m hm
    simp only [visitManyF] at h
    injection h with h
    rw [← h] at hm
    exact Or.inl hm
  | cons d ds ih =>
    intro fin f h m hm
    simp only [visitManyF] at h
    split at h
    · cases h
    · rename_i f1 hf1
      rcases ih f1 f h m hm with hm1 | ⟨d2, hd2, hr⟩
      · rcases H d fin f1 hf1 m hm1 with hfin | hr
        · exact Or.inl hfin
        · exact Or.inr ⟨d, List.mem_cons_self d ds, hr⟩
      · exact Or.inr ⟨d2, List.mem_cons_of_mem d hd2, hr⟩

theorem visit_reach (g : DocumentGraph) :
    ∀ (fuel : Nat) (path : List NodeId) (id : NodeId) (fin f : List NodeId),
      visit g fuel path id fin = some f →
      ∀ m ∈ f, m ∈ fin ∨ Relation.ReflTransGen (edge g) id m := by
  intro fuel
  induction fuel with
  | zero => intro path id fin f h; simp [visit] at h
  | succ fuel ih =>
    intro path id fin f h m hm
    simp only [visit] at h
    split at h
    · cases h
    · split at h
      · injection h with h
        rw [← h] at hm
        exact Or.inl hm
      · split at h
        · injection h with h
          rw [← h] at hm
          exact Or.inl hm
        · rename_i nd hnd
          split at h
          · cases h
          · rename_i f1 hf1
            injection h with h
            rw [← h] at hm
            rcases List.mem_append.mp hm with hm1 | hm2
            · rcases visitManyF_reach g _ (Relation.ReflTransGen (edge g))
                (fun d fin2 f2 hv => ih (id :: path) d fin2 f2 hv)
                nd.deps fin f1 hf1 m hm1 with hfin | ⟨d, hd, hr⟩
              · exact Or.inl hfin
              · exact Or.inr (Relation.ReflTransGen.head ⟨nd, hnd, hd⟩ hr)
            · have : m = id := by simpa using hm2
              rw [this]
              exact Or.inr Relation.ReflTransGen.refl

theorem GoodAt_nil (g : DocumentGraph) : GoodAt g [] := by
  intro i id nd hget
  exact Option.noConfusion hget

theorem good_no_cycle (g : DocumentGraph) (f : List NodeId) (hg : GoodAt g f) :
    ∀ i m, f.get? i = some m → ¬ Relation.TransGen (edge g) m m := by
  intro i
  induction i using Nat.strong_induction_on with
  | _ i ih =>
    intro m hm hcyc
    obtain ⟨m2, he, hr⟩ := Relation.TransGen.head'_iff.mp hcyc
    obtain ⟨nd, hfind, hdep⟩ := he
    have hm2ex : ∃ nd2, g.find m2 = some nd2 := by
      rcases Relation.ReflTransGen.cases_head hr with heq | ⟨x, hx, _⟩
      · rw [heq]
        exact ⟨nd, hfind⟩
      · obtain ⟨nd2, h2, _⟩ := hx
        exact ⟨nd2, h2⟩
    obtain ⟨nd2, hfind2⟩ := hm2ex
    rcases hg i m nd hm hfind m2 hdep with hnone | ⟨j, hj, hgj⟩
    · rw [hnone] at hfind2
      cases hfind2
    · exact ih j hj m2 hgj (Relation.TransGen.tail' hr ⟨nd, hfind, hdep⟩)

theorem good_closure (g : DocumentGraph) (f : List NodeId) (out : NodeId)
    (hg : GoodAt g f) (hout : out ∈ f) :
    ∀ m, Relation.ReflTransGen (edge g) out m → (∃ nd, g.find m = some nd) → m ∈ f := by
  intro m hr
  induction hr with
  | refl => intro _; exact hout
  | tail hab hbc ih =>
    intro hcex
    obtain ⟨ndb, hfb, hdep⟩ := hbc
    have hbex := ih ⟨ndb, hfb⟩
    obtain ⟨i, hi⟩ := List.mem_iff_get?.mp hbex
    rcases hg i _ ndb hi hfb _ hdep with hnone | ⟨j, _, hgj⟩
    · obtain ⟨ndc, hfc⟩ := hcex
      rw [hnone] at hfc
      cases hfc
    · exact List.mem_iff_get?.mpr ⟨j, hgj⟩

/-- C5: for every Document Graph containing a cycle reachable from the
requested output, compile terminates (it is a total function) and returns the
CyclicGraph error. -/
theorem compile_cyclic (reg : Registry) (g : DocumentGraph) (out n : NodeId)
    (hreach : Relation.ReflTransGen (edge g) out n)
    (hcyc : Relation.TransGen (edge g) n n) :
    compile reg g out = Except.error StructuralError.CyclicGraph := by
  have hout_ex : ∃ nd, g.find out = some nd := by
    rcases Relation.ReflTransGen.cases_head hreach with heq | ⟨x, hx, _⟩
    · obtain ⟨m2, he, _⟩ := Relation.TransGen.head'_iff.mp hcyc
      obtain ⟨nd, hf, _⟩ := he
      rw [heq]
      exact ⟨nd, hf⟩
    · obtain ⟨nd, hf, _⟩ := hx
      exact ⟨nd, hf⟩
  obtain ⟨nd0, hf0⟩ := hout_ex
  have hn_ex : ∃ nd, g.find n = some nd := by
    obtain ⟨m2, he, _⟩ := Relation.TransGen.head'_iff.mp hcyc
    obtain ⟨nd, hf, _⟩ := he
    exact ⟨nd, hf⟩
  cases htr : traverse g out with
  | some f =>
    exfalso
    have hgood : GoodAt g f := visit_good g _ [] out [] f htr (GoodAt_nil g)
    have hout_f : out ∈ f := by
      rcases visit_mem g _ [] out [] f htr with h | h
      · exact h
      · rw [h] at hf0
        cases hf0
    have hn_f : n ∈ f := good_closure g f out hgood hout_f n hreach hn_ex
    obtain ⟨i, hi⟩ := List.mem_iff_get?.mp hn_f
    exact good_no_cycle g f hgood i n hi hcyc
  | none =>
    simp [compile, hf0, htr]

/-- C5 witness: the self-loop demo graph fails with CyclicGraph. -/
theorem compile_cyclic_witness :
    compile demoReg demoLoopGraph 0 = Except.error StructuralError.CyclicGraph :=
  compile_cyclic demoReg demoLoopGraph 0 0 Relation.ReflTransGen.refl
    (Relation.TransGen.single
      ⟨⟨0, "double", [Binding.ref 0], ""⟩, rfl, by decide⟩)

theorem buildProto_ids (reg : Registry) (g : DocumentGraph) :
    ∀ (ids : List NodeId) (acc ns : List ProtoNode),
      buildProto reg g ids acc = Except.ok ns →
      ns.map ProtoNode.nodeId = acc.map ProtoNode.nodeId ++ ids := by
  intro ids
  induction ids with
  | nil =>
    intro acc ns h
    simp only [buildProto] at h
    injection h with h
    rw [← h]
    simp
  | cons id rest ih =>
    intro acc ns h
    simp only [buildProto] at h
    split at h
    · cases h
    · split at h
      · cases h
      · split at h
        · cases h
        · split at h
          · split at h
            · rw [ih _ _ h]
              simp [ProtoNode.nodeId]
            · rw [ih _ _ h]
              simp [ProtoNode.nodeId]
          · rw [ih _ _ h]
            simp [ProtoNode.nodeId]

/-- C7: dead-node elimination: a node not transitively reachable from the
requested output does not appear in the compiled Proto Graph, hence the
executor (which walks only the Proto Graph's nodes) never evaluates it. -/
theorem dead_node_eliminated (reg : Registry) (g : DocumentGraph) (out : NodeId)
    (p : ProtoGraph) (id : NodeId)
    (hc : compile reg g out = Except.ok p)
    (hun : ¬ Relation.ReflTransGen (edge g) out id) :
    id ∉ p.nodes.map ProtoNode.nodeId := by
  obtain ⟨f, ns, htr, _, _, hb, hpn⟩ := compile_ok_inv reg g out p hc
  intro hmem
  rw [hpn, buildProto_ids reg g f [] ns hb] at hmem
  simp only [List.map_nil, List.nil_append] at hmem
  rcases visit_reach g _ [] out [] f htr id hmem with h | h
  · cases h
  · exact hun h

/-- C7 witness: node identity 5 is unreachable from the demo output and does
not appear in the compiled Proto Graph. -/
theorem dead_node_eliminated_witness : 5 ∉ demoExtProto.nodes.map ProtoNode.nodeId :=
  dead_node_eliminated demoReg demoExtGraph 0 demoExtProto 5 rfl (by
    intro h
    rcases Relation.ReflTransGen.cases_head h with heq | ⟨c, hc, _⟩
    · exact absurd heq (by decide)
    · obtain ⟨nd, hf, hd⟩ := hc
      have hf0 : demoExtGraph.find 0 = some ⟨0, "ext", [], ""⟩ := rfl
      rw [hf0] at hf
      injection hf with hf
      rw [← hf] at hd
      simp [DocNode.deps, Binding.refTarget] at hd)

theorem opIds_cons_op (i : NodeId) (kind : String) (args : List Arg) (rest : List ProtoNode) :
    opIds (ProtoNode.op i kind args :: rest) = i :: opIds rest := rfl

theorem opIds_cons_lit (i : NodeId) (v : Value) (rest : List ProtoNode) :
    opIds (ProtoNode.literal i v :: rest) = opIds rest := rfl

theorem cacheGet_put_same (c : Cache) (id : NodeId) (fp : List Value) (v : Value) :
    cacheGet (cachePut c id fp v) id fp = some v := by
  unfold cachePut
  simp [cacheGet]

theorem cacheGet_remove_other (id id2 : NodeId) (fp2 : List Value) (h : id2 ≠ id) :
    ∀ (l : Cache), cacheGet (cacheRemove l id) id2 fp2 = cacheGet l id2 fp2 := by
  intro l
  induction l with
  | nil => rfl
  | cons e l ih =>
    by_cases hq : e.id = id
    · simp only [cacheRemove]
      rw [if_pos hq, ih]
      simp only [cacheGet]
      rw [if_neg (fun hc => h (hc.1.symm.trans hq))]
    · simp only [cacheRemove]
      rw [if_neg hq]
      simp only [cacheGet]
      by_cases hp : e.id = id2 ∧ e.fingerprint = fp2
      · rw [if_pos hp, if_pos hp]
      · rw [if_neg hp, if_neg hp]
        exact ih

theorem cacheGet_put_other (c : Cache) (id : NodeId) (fp : List Value) (v : Value)
    (id2 : NodeId) (fp2 : List Value) (h : id2 ≠ id) :
    cacheGet (cachePut c id fp v) id2 fp2 = cacheGet c id2 fp2 := by
  unfold cachePut
  simp only [cacheGet]
  rw [if_neg (fun hc => h hc.1.symm)]
  exact cacheGet_remove_other id id2 fp2 h c

theorem runNodes_cache_stable (reg : Registry) :
    ∀ (nodes : List ProtoNode) (res : List Value) (c : Cache) (k : Nat)
      (resF : List Value) (cF : Cache) (kF : Nat),
      runNodes reg nodes res c k = Except.ok (resF, cF, kF) →
      ∀ id, id ∉ opIds nodes → ∀ fp, cacheGet cF id fp = cacheGet c id fp := by
  intro nodes
  induction nodes with
  | nil =>
    intro res c k resF cF kF h id hid fp
    simp only [runNodes] at h
    injection h with h
    injection h with h1 h2
    injection h2 with h2 h3
    rw [← h2]
  | cons pn rest ih =>
    intro res c k resF cF kF h id hid fp
    cases pn with
    | literal i v =>
      simp only [runNodes] at h
      rw [opIds_cons_lit] at hid
      exact ih _ _ _ _ _ _ h id hid fp
    | op i kind args =>
      rw [opIds_cons_op, List.mem_cons] at hid
      push_neg at hid
      simp only [runNodes] at h
      split at h
      · cases h
      · rename_i vals hvals
        split at h
        · exact ih _ _ _ _ _ _ h id hid.2 fp
        · split at h
          · cases h
          · rename_i d hd
            split at h
            · cases h
            · rename_i v hv
              have hstable := ih _ _ _ _ _ _ h id hid.2 fp
              rw [hstable]
              exact cacheGet_put_other c i vals v id fp hid.1

theorem runNodes_replay (reg : Registry) :
    ∀ (nodes : List ProtoNode) (res : List Value) (c : Cache) (k : Nat)
      (resF : List Value) (cF : Cache) (kF k2 : Nat),
      (opIds nodes).Nodup →
      runNodes reg nodes res c k = Except.ok (resF, cF, kF) →
      runNodes reg nodes res cF k2 = Except.ok (resF, cF, k2) := by
  intro nodes
  induction nodes with
  | nil =>
    intro res c k resF cF kF k2 hnd h
    simp only [runNodes] at h ⊢
    injection h with h
    injection h with h1 h2
    injection h2 with h2 h3
    rw [h1]
  | cons pn rest ih =>
    intro res c k resF cF kF k2 hnd h
    cases pn with
    | literal i v =>
      simp only [runNodes] at h ⊢
      rw [opIds_cons_lit] at hnd
      exact ih _ _ _ _ _ _ _ hnd h
    | op i kind args =>
      rw [opIds_cons_op] at hnd
      obtain ⟨hni, hnd2⟩ := List.nodup_cons.mp hnd
      simp only [runNodes] at h ⊢
      split at h
      · cases h
      · rename_i vals hvals
        split at h
        · rename_i v hhit
          have hstable := runNodes_cache_stable reg rest _ _ _ _ _ _ h i hni vals
          rw [hhit] at hstable
          simp only [hstable]
          exact ih _ _ _ _ _ _ _ hnd2 h
        · rename_i hmiss
          split at h
          · cases h
          · rename_i d hd
            split at h
            · cases h
            · rename_i v hv
              have hstable := runNodes_cache_stable reg rest _ _ _ _ _ _ h i hni vals
              rw [cacheGet_put_same] at hstable
              simp only [hstable]
              exact ih _ _ _ _ _ _ _ hnd2 h

theorem traverse_nodup (g : DocumentGraph) (out : NodeId) (f : List NodeId)
    (h : traverse g out = some f) : f.Nodup :=
  visit_nodup g _ [] out [] f h List.nodup_nil

theorem compiled_ids_nodup (reg : Registry) (g : DocumentGraph) (out : NodeId)
    (p : ProtoGraph) (h : compile reg g out = Except.ok p) :
    (p.nodes.map ProtoNode.nodeId).Nodup := by
  obtain ⟨f, ns, htr, _, _, hb, hpn⟩ := compile_ok_inv reg g out p h
  rw [hpn, buildProto_ids reg g f [] ns hb]
  simp only [List.map_nil, List.nil_append]
  exact traverse_nodup g out f htr

theorem opIds_sublist (ns : List ProtoNode) :
    (opIds ns).Sublist (ns.map ProtoNode.nodeId) := by
  induction ns with
  | nil => simp [opIds]
  | cons pn rest ih =>
    cases pn with
    | literal i v =>
      rw [opIds_cons_lit]
      exact ih.cons _
    | op i kind args =>
      rw [opIds_cons_op]
      simp only [List.map_cons]
      exact ih.cons₂ _

/-- C6: for a fixed Document Graph and requested output (hence a fixed
compiled Proto Graph) a second evaluation with no intervening edits returns
the same value, leaves the cache unchanged, and invokes zero node
computations: every proto-node lookup is a cache hit. -/
theorem evaluate_cached_replay (reg : Registry) (g : DocumentGraph) (out : NodeId)
    (p : ProtoGraph) (c : Cache) (v : Value) (cF : Cache) (k : Nat)
    (hc : compile reg g out = Except.ok p)
    (he : evaluate reg p c = Except.ok (v, cF, k)) :
    evaluate reg p cF = Except.ok (v, cF, 0) := by
  have hnd : (opIds p.nodes).Nodup :=
    (opIds_sublist p.nodes).nodup (compiled_ids_nodup reg g out p hc)
  unfold evaluate at he ⊢
  split at he
  · cases he
  · rename_i res cF2 k2 hrun
    split at he
    · cases he
    · rename_i vout hout
      injection he with he
      injection he with he1 he2
      injection he2 with he2 he3
      rw [← he1, ← he2]
      have hrep := runNodes_replay reg p.nodes [] c 0 res cF2 k2 0 hnd hrun
      simp only [hrep]
      simp only [hout]

/-- C6 witness: evaluating the compiled demo chain graph against the cache
its first evaluation produced (which ran one computation) returns the same
value, the same cache, and zero computations. -/
theorem evaluate_cached_replay_witness :
    evaluate demoReg demoChainProto demoCache1 =
      Except.ok (Value.number 14, demoCache1, 0) :=
  evaluate_cached_replay demoReg demoChainGraph 1 demoChainProto demoCache0
    (Value.number 14) demoCache1 1 rfl rfl

end Graphite
